import Mathlib

/-!
# Verification of the fluent-compiler migration transforms

A shallow embedding of `src/fluent/migrate/transforms.py` (the transform
evaluation engine of the repository): the FTL pattern data model, the
pattern-building utilities (`flatten_elements`, `normalize_text_content`,
`preserve_whitespace`, `pattern_of`), and the evaluation bodies of
`Source`/`COPY`/`REPLACE_IN_TEXT`/`PLURALS`, followed by theorems about the
specified properties.

Modelling conventions:
* Python strings are `String`; the substring primitives (`in`, `str.find`,
  `str.partition`, `str.split(';')`, `str.endswith`) are embedded as
  structurally recursive functions over `String.data` (`List Char`).
* Python runtime exceptions (`ValueError` from `partition('')`, `KeyError`
  from a missing dict key, `IndexError`/`ValueError` in `PLURALS`) are
  embedded as an `Except PyErr` result.
* A Python dict of replacements is an association list with distinct keys;
  `sorted`/`list.sort` (stable in Python) are embedded as the stable
  `List.insertionSort`.
* `evaluate(ctx, node)` resolution of nested transforms is modelled by
  taking the already-evaluated replacement nodes / builder results as
  inputs, since every claim is about a single transform body.
-/

namespace FluentMigrate

/-- Errors raised by the Python runtime in the embedded code paths. -/
inductive PyErr where
  | valueError
  | keyError
  | indexError
deriving DecidableEq, Repr

/-! ## The FTL pattern data model (`fluent.syntax.ast` nodes used by the core) -/

mutual
/-- FTL expressions: the core constructs `StringExpression` and
`SelectExpression` directly; every other expression kind (e.g. an external
argument reference) passes through opaquely and is represented by
`external`. -/
inductive Expression where
  | stringExpr (value : String)
  | selectExpr (selector : Expression) (variants : List Variant)
  | external (name : String)

/-- An `FTL.Variant`: category key (the `VariantName`), pattern value and
default flag. -/
inductive Variant where
  | mk (key : String) (value : Pattern) (default : Bool)

/-- An `FTL.Pattern`: an ordered sequence of pattern elements. -/
inductive Pattern where
  | mk (elements : List PatternElement)

/-- An `FTL.PatternElement`: a `TextElement` or a `Placeable`. -/
inductive PatternElement where
  | textElement (value : String)
  | placeable (expression : Expression)
end

/-- Category key of a variant. -/
def Variant.key : Variant → String
  | .mk k _ _ => k

/-- Pattern value of a variant. -/
def Variant.value : Variant → Pattern
  | .mk _ v _ => v

/-- Default flag of a variant. -/
def Variant.default : Variant → Bool
  | .mk _ _ d => d

/-- Element list of a pattern. -/
def Pattern.elements : Pattern → List PatternElement
  | .mk es => es

/-- The inputs accepted by `Transform.flatten_elements`: a full `Pattern`, a
`PatternElement`, or a bare `Expression`.  (In Python any other node raises
`RuntimeError`; the closed type makes that branch unrepresentable.) -/
inductive FNode where
  | pat (p : Pattern)
  | elem (e : PatternElement)
  | expr (e : Expression)

/-! ## Embedded Python string primitives (over `List Char`) -/

/-- Index of the first occurrence of `key` in `t`, if any
(Python `t.find(key)`, with `none` for `-1`). -/
def charsFind (key : List Char) : List Char → Option Nat
  | [] => if key.isEmpty then some 0 else none
  | c :: rest =>
    if key.isPrefixOf (c :: rest) then some 0
    else (charsFind key rest).map (· + 1)

/-- Python `key in t` (substring containment). -/
def charsOccurs (key t : List Char) : Bool :=
  (charsFind key t).isSome

/-- Split `t` at the first occurrence of `key`: `some (before, after)` with
`before ++ key ++ after = t`, or `none` if `key` does not occur.  This is the
found case of Python `t.partition(key)` for a non-empty `key`. -/
def splitFirst (key : List Char) : List Char → Option (List Char × List Char)
  | [] => none
  | c :: rest =>
    if key.isPrefixOf (c :: rest) then some ([], (c :: rest).drop key.length)
    else (splitFirst key rest).map (fun ba => (c :: ba.1, ba.2))

/-- Python `value.split(';')` over the character list. -/
def splitSemis : List Char → List (List Char)
  | [] => [[]]
  | c :: rest =>
    match splitSemis rest with
    | [] => [[]]
    | g :: gs => if c = ';' then [] :: g :: gs else (c :: g) :: gs

/-- Python `path.endswith(post)`. -/
def pyEndsWith (s post : String) : Bool :=
  post.data.isSuffixOf s.data

/-- A character matched by Python 2's `\s` (no `re.UNICODE`):
space, tab, newline, carriage return, vertical tab, form feed. -/
def pyIsSpace (c : Char) : Bool :=
  c == ' ' || c == '\t' || c == '\n' || c == '\r' || c == '\x0b' || c == '\x0c'

/-- Embedding of the `re.match` test against the pattern `^\s*$`:
the value consists only of whitespace characters. -/
def isWsOnly (v : String) : Bool :=
  v.data.all pyIsSpace

/-! ## Pattern-building utilities (`Transform` static methods) -/

namespace Transform

/-- `Transform.flatten_elements`: flatten patterns / elements / expressions
into a sequence of `PatternElement`s. -/
def flatten_elements (elements : List FNode) : List PatternElement :=
  elements.flatMap fun element =>
    match element with
    | .pat p => p.elements
    | .elem e => [e]
    | .expr e => [.placeable e]

/-- The `get_text` helper of `Transform.normalize_text_content`: the raw text
contributed by an element, if it is a `TextElement` or a `Placeable` wrapping
a `StringExpression`. -/
def get_text : PatternElement → Option String
  | .textElement v => some v
  | .placeable (.stringExpr v) => some v
  | .placeable _ => none

/-- One iteration of the `normalize_text_content` loop.  The accumulator is
the Python `joined` list stored in reverse, so `joined[-1]` is the head and
the in-place `previous.value += current_text` mutation is replacing the
head. -/
def ntcStep (joined : List PatternElement) (current : PatternElement) :
    List PatternElement :=
  match get_text current with
  | none => current :: joined
  | some t =>
    match joined with
    | PatternElement.textElement pv :: rest =>
      PatternElement.textElement (pv ++ t) :: rest
    | _ => if 0 < t.length then PatternElement.textElement t :: joined else joined

/-- `Transform.normalize_text_content`: coalesce textual content, converting
`TextElement`s and `StringExpression` placeables into merged `TextElement`s. -/
def normalize_text_content (elements : List PatternElement) : List PatternElement :=
  (elements.foldl ntcStep []).reverse

/-- `Transform.preserve_whitespace`: represent empty and whitespace-only
values as a `Placeable` wrapping a `StringExpression`. -/
def preserve_whitespace (elements : List PatternElement) : List PatternElement :=
  match elements with
  | [] => [.placeable (.stringExpr "")]
  | [PatternElement.textElement v] =>
    if isWsOnly v then [.placeable (.stringExpr v)] else elements
  | _ => elements

/-- `Transform.pattern_of`: flatten, normalize, preserve whitespace, wrap. -/
def pattern_of (elements : List FNode) : Pattern :=
  .mk (preserve_whitespace (normalize_text_content (flatten_elements elements)))

end Transform

/-! ## Source / COPY / REPLACE / PLURALS -/

/-- The data stored by a constructed `Source` transform. -/
structure SourceT where
  path : String
  key : String

/-- The message of the `NotSupportedError` raised by `Source.__init__`. -/
def NotSupportedErrorMsg (path : String) : String :=
  "Migrating translations from Fluent files is not supported (" ++ path ++ ")"

/-- `Source.__init__`: construction-time rejection of paths ending in
`.ftl`; evaluation-time behaviour is unaffected by construction, so the
construction result is an `Except` value. -/
def Source_init (path key : String) : Except String SourceT :=
  if pyEndsWith path ".ftl" then .error (NotSupportedErrorMsg path)
  else .ok ⟨path, key⟩

/-- `COPY.__init__` delegates to `Source.__init__` unchanged. -/
def COPY_init (path key : String) : Except String SourceT :=
  Source_init path key

/-- `REPLACE.__init__`: `Source.__init__` followed by storing the
replacements. -/
def REPLACE_init (path key : String) (replacements : List (String × FNode)) :
    Except String (SourceT × List (String × FNode)) :=
  (Source_init path key).map (fun s => (s, replacements))

/-- `PLURALS.__init__`: `Source.__init__` followed by storing the selector
and the `foreach` builder. -/
def PLURALS_init (path key : String) (selector : Expression)
    (foreach : PatternElement → Pattern) :
    Except String (SourceT × Expression × (PatternElement → Pattern)) :=
  (Source_init path key).map (fun s => (s, selector, foreach))

/-- `Source.__call__`: wrap the text resolved by `ctx.get_source` in a
`TextElement`.  The context lookup is the external collaborator; the
resolved text is taken as the argument. -/
def Source_call (text : String) : PatternElement :=
  .textElement text

/-- `COPY.__call__`: `Source.__call__` then `Transform.pattern_of`. -/
def COPY_call (text : String) : Pattern :=
  Transform.pattern_of [.elem (Source_call text)]

/-! ### REPLACE_IN_TEXT -/

/-- Python dict lookup `replacements[k]` over the association list. -/
def lookupVal (repl : List (String × FNode)) (k : String) : Option FNode :=
  match repl with
  | [] => none
  | (k₀, v) :: rest => if k₀ = k then some v else lookupVal rest k

/-- The surviving replacements: entries whose key occurs in the text
(`if key in self.element.value`). -/
def survivingRepl (text : String) (repl : List (String × FNode)) :
    List (String × FNode) :=
  repl.filter (fun kv => charsOccurs kv.1.data text.data)

/-- First-occurrence position of a surviving key (`self.element.value.find`);
every surviving key occurs, so the default is never used there. -/
def foD (text : String) (k : String) : Nat :=
  (charsFind k.data text.data).getD 0

/-- The surviving keys ordered by first occurrence in the text
(`sorted(replacements.keys(), cmp)` with the `find` comparator; Python
sorts are stable, embedded as the stable insertion sort). -/
def keysInOrder (text : String) (repl : List (String × FNode)) : List String :=
  List.insertionSort (fun a b => foD text a ≤ foD text b)
    ((survivingRepl text repl).map Prod.fst)

/-- The `for key in keys_in_order` loop of `REPLACE_IN_TEXT.__call__`:
partition the remaining tail around each key, emitting the text before it
and the replacement.  `tail.partition(key)` raises `ValueError` on an empty
key; when a key is not found the partition returns `(tail, two empty
strings)` and the subsequent dict lookup uses the rebound empty key, raising
`KeyError` when absent. -/
def replaceLoop (repl : List (String × FNode)) :
    List String → List Char → Except PyErr (List FNode)
  | [], tail => .ok [.elem (.textElement (String.mk tail))]
  | k :: ks, tail =>
    if k.data.isEmpty then .error .valueError
    else
      match splitFirst k.data tail with
      | some ba =>
        match lookupVal repl k with
        | some r =>
          (replaceLoop repl ks ba.2).map
            (fun rest => .elem (.textElement (String.mk ba.1)) :: r :: rest)
        | none => .error .keyError
      | none =>
        match lookupVal repl "" with
        | some r =>
          (replaceLoop repl ks []).map
            (fun rest => .elem (.textElement (String.mk tail)) :: r :: rest)
        | none => .error .keyError

/-- `REPLACE_IN_TEXT.__call__` on a text element with value `text`:
filter the replacements, order the keys, run the partition loop and build
the final pattern with `Transform.pattern_of`.  Replacement values are the
already-evaluated nodes (`evaluate(ctx, repl)`). -/
def REPLACE_IN_TEXT_call (text : String) (repl : List (String × FNode)) :
    Except PyErr Pattern :=
  (replaceLoop (survivingRepl text repl) (keysInOrder text repl) text.data).map
    (fun els => Transform.pattern_of els)

/-! ### PLURALS -/

/-- `PLURALS.DEFAULT_ORDER`: the canonical CLDR category ordering. -/
def DEFAULT_ORDER : List String :=
  ["zero", "one", "two", "few", "many", "other"]

/-- `DEFAULT_ORDER.index(k)` (meaningful for members of the list). -/
def orderIndex (k : String) : Nat :=
  DEFAULT_ORDER.indexOf k

/-- The default-category computation: the first entry of the reversed
canonical ordering present in `plural_categories` (`none` models the
`IndexError` of indexing an empty comprehension). -/
def defaultKeyOf (keys : List String) : Option String :=
  (DEFAULT_ORDER.reverse.filter (fun k => keys.contains k)).head?

/-- The variants extracted from the source text (`element.value.split(';')`,
each part wrapped in a `TextElement`). -/
def variantsOf (sourceText : String) : List PatternElement :=
  (splitSemis sourceText.data).map (fun cs => .textElement (String.mk cs))

/-- `createVariant` of `PLURALS.__call__`: run the (already-evaluated)
builder on the variant and mark it default iff its key is the default key. -/
def mkVariant (default_key : String) (foreach : PatternElement → Pattern)
    (kv : String × PatternElement) : Variant :=
  .mk kv.1 (foreach kv.2) (kv.1 == default_key)

/-- The `keys_and_variants` list after the stable sort by
`DEFAULT_ORDER.index` (Python `list.sort` is stable, embedded as the stable
insertion sort). -/
def sortedKvs (plural_categories : List String) (sourceText : String) :
    List (String × PatternElement) :=
  List.insertionSort (fun a b => orderIndex a.1 ≤ orderIndex b.1)
    (plural_categories.zip (variantsOf sourceText))

/-- `PLURALS.__call__` on the resolved source text.  `plural_categories`
comes from the context; `selector` and the `foreach` results are already
evaluated.  `zip` truncates to the shorter list; the sort by
`DEFAULT_ORDER.index` raises `ValueError` for a category outside the
canonical six; `[-1]` on an empty list and `[0]` on an empty comprehension
raise `IndexError`. -/
def PLURALS_call (plural_categories : List String) (selector : Expression)
    (sourceText : String) (foreach : PatternElement → Pattern) :
    Except PyErr Pattern :=
  if plural_categories.length = 1 ∨ (variantsOf sourceText).length = 1 then
    match variantsOf sourceText with
    | [] => .error .indexError
    | v :: _ => .ok (foreach v)
  else
    match defaultKeyOf plural_categories with
    | none => .error .indexError
    | some default_key =>
      if (plural_categories.zip (variantsOf sourceText)).all
          (fun kv => DEFAULT_ORDER.contains kv.1) then
        match (sortedKvs plural_categories sourceText).getLast? with
        | none => .error .indexError
        | some last =>
          .ok (.mk [.placeable (.selectExpr selector
            ((if last.1 == default_key
              then sortedKvs plural_categories sourceText
              else sortedKvs plural_categories sourceText ++
                [(default_key, last.2)]).map
              (mkVariant default_key foreach)))])
      else .error .valueError

/-- `CONCAT.__call__`: `Transform.pattern_of` on the stored elements. -/
def CONCAT_call (elements : List FNode) : Pattern :=
  Transform.pattern_of elements

/-! ## Lemmas about the embedded string primitives -/

theorem isPrefixOf_iff_append :
    ∀ (k l : List Char), k.isPrefixOf l = true ↔ ∃ r, k ++ r = l
  | [], l => by simp
  | a :: as, [] => by simp [List.isPrefixOf]
  | a :: as, b :: bs => by
    simp only [List.isPrefixOf, Bool.and_eq_true, beq_iff_eq,
      isPrefixOf_iff_append as bs, List.cons_append, List.cons.injEq]
    constructor
    · rintro ⟨rfl, r, rfl⟩; exact ⟨r, rfl, rfl⟩
    · rintro ⟨r, rfl, rfl⟩; exact ⟨rfl, r, rfl⟩

theorem charsFind_nil_key : ∀ t : List Char, charsFind [] t = some 0
  | [] => rfl
  | _ :: _ => by simp [charsFind]

theorem charsOccurs_nil_key (t : List Char) : charsOccurs [] t = true := by
  simp [charsOccurs, charsFind_nil_key]

theorem charsFind_isPrefixOf {k : List Char} :
    ∀ {t : List Char} {p : Nat}, charsFind k t = some p →
      k.isPrefixOf (t.drop p) = true := by
  intro t
  induction t with
  | nil =>
    intro p h
    simp only [charsFind] at h
    split at h
    · rename_i hk
      cases h
      simpa [List.isEmpty_iff] using hk
    · cases h
  | cons c rest ih =>
    intro p h
    simp only [charsFind] at h
    split at h
    · rename_i hpre
      cases h
      simpa using hpre
    · rcases Option.map_eq_some'.mp h with ⟨p', hp', rfl⟩
      simpa using ih hp'

theorem charsFind_min {k : List Char} :
    ∀ {t : List Char} {p : Nat}, charsFind k t = some p →
      ∀ q, k.isPrefixOf (t.drop q) = true → p ≤ q := by
  intro t
  induction t with
  | nil =>
    intro p h q _
    simp only [charsFind] at h
    split at h
    · cases h; exact Nat.zero_le q
    · cases h
  | cons c rest ih =>
    intro p h q hq
    simp only [charsFind] at h
    split at h
    · cases h; exact Nat.zero_le q
    · rename_i hpre
      rcases Option.map_eq_some'.mp h with ⟨p', hp', rfl⟩
      cases q with
      | zero => simp only [List.drop_zero] at hq; exact absurd hq (by simpa using hpre)
      | succ q' =>
        simp only [List.drop_succ_cons] at hq
        exact Nat.succ_le_succ (ih hp' q' hq)

theorem charsFind_isSome_of {k : List Char} :
    ∀ {t : List Char} {q : Nat}, k.isPrefixOf (t.drop q) = true →
      (charsFind k t).isSome = true := by
  intro t
  induction t with
  | nil =>
    intro q h
    simp only [List.drop_nil] at h
    have hk : k = [] := by
      cases k with
      | nil => rfl
      | cons a as => simp [List.isPrefixOf] at h
    subst hk
    simp [charsFind_nil_key]
  | cons c rest ih =>
    intro q h
    simp only [charsFind]
    split
    · simp
    · rename_i hpre
      cases q with
      | zero => simp only [List.drop_zero] at h; exact absurd h (by simpa using hpre)
      | succ q' =>
        simp only [List.drop_succ_cons] at h
        have := ih h
        rcases Option.isSome_iff_exists.mp this with ⟨p', hp'⟩
        simp [hp']

theorem charsFind_drop {k : List Char} :
    ∀ {t : List Char} {p s : Nat}, charsFind k t = some p → s ≤ p →
      charsFind k (t.drop s) = some (p - s) := by
  intro t
  induction t with
  | nil =>
    intro p s h hs
    simp only [charsFind] at h
    split at h
    · rename_i hke
      cases h
      have hs0 : s = 0 := Nat.le_zero.mp hs
      subst hs0
      simp [charsFind, hke]
    · cases h
  | cons c rest ih =>
    intro p s h hs
    cases s with
    | zero => simpa using h
    | succ s' =>
      simp only [charsFind] at h
      split at h
      · cases h; omega
      · rcases Option.map_eq_some'.mp h with ⟨p', hp', rfl⟩
        simp only [List.drop_succ_cons]
        have := ih hp' (Nat.le_of_succ_le_succ hs)
        simpa [Nat.succ_sub_succ] using this

theorem splitFirst_of_charsFind {k : List Char} (hk : k ≠ []) :
    ∀ {t : List Char} {p : Nat}, charsFind k t = some p →
      splitFirst k t = some (t.take p, t.drop (p + k.length)) := by
  intro t
  induction t with
  | nil =>
    intro p h
    simp only [charsFind] at h
    split at h
    · rename_i hke; exact absurd (List.isEmpty_iff.mp hke) hk
    · cases h
  | cons c rest ih =>
    intro p h
    simp only [charsFind] at h
    split at h
    · rename_i hpre
      cases h
      simp [splitFirst, hpre]
    · rename_i hpre
      rcases Option.map_eq_some'.mp h with ⟨p', hp', rfl⟩
      have := ih hp'
      simp only [splitFirst, hpre, if_false, this, Option.map_some']
      have hdrop : (c :: rest).drop (p' + 1 + k.length) = rest.drop (p' + k.length) := by
        have : p' + 1 + k.length = (p' + k.length) + 1 := by omega
        simp [this]
      simp [hdrop]

theorem splitFirst_append {k : List Char} :
    ∀ {t b a : List Char}, splitFirst k t = some (b, a) → b ++ k ++ a = t := by
  intro t
  induction t with
  | nil => intro b a h; cases h
  | cons c rest ih =>
    intro b a h
    simp only [splitFirst] at h
    split at h
    · rename_i hpre
      cases h
      rcases (isPrefixOf_iff_append k (c :: rest)).mp hpre with ⟨r, hr⟩
      rw [← hr, List.drop_left]
      simp
    · rcases Option.map_eq_some'.mp h with ⟨⟨b', a'⟩, hba, hba2⟩
      cases hba2
      have := ih hba
      simp only [List.cons_append, List.append_assoc] at this ⊢
      rw [this]

theorem splitFirst_min {k : List Char} :
    ∀ {t b a : List Char}, splitFirst k t = some (b, a) →
      ∀ q, k.isPrefixOf (t.drop q) = true → b.length ≤ q := by
  intro t
  induction t with
  | nil => intro b a h; cases h
  | cons c rest ih =>
    intro b a h q hq
    simp only [splitFirst] at h
    split at h
    · cases h; exact Nat.zero_le q
    · rename_i hpre
      rcases Option.map_eq_some'.mp h with ⟨⟨b', a'⟩, hba, hba2⟩
      cases hba2
      cases q with
      | zero => simp only [List.drop_zero] at hq; exact absurd hq (by simpa using hpre)
      | succ q' =>
        simp only [List.drop_succ_cons] at hq
        exact Nat.succ_le_succ (ih hba q' hq)

theorem splitSemis_ne_nil : ∀ t : List Char, splitSemis t ≠ []
  | [] => by simp [splitSemis]
  | c :: rest => by
    rw [splitSemis]
    cases h : splitSemis rest with
    | nil => simp
    | cons g gs =>
      dsimp only
      split <;> simp

theorem string_data_eq_nil_iff {v : String} : v.data = [] ↔ v = "" := by
  cases v with
  | mk d =>
    constructor
    · intro h
      have hd : d = [] := h
      subst hd
      rfl
    · intro h
      rw [h]

theorem string_length_pos_of_ne {v : String} (h : v ≠ "") : 0 < v.length := by
  have : v.data ≠ [] := fun hd => h (string_data_eq_nil_iff.mp hd)
  cases hv : v.data with
  | nil => exact absurd hv this
  | cons c cs => simp [String.length, hv]

theorem string_append_empty_right (s : String) : s ++ "" = s := by
  cases s with
  | mk data =>
    show String.mk (data ++ "".data) = String.mk data
    simp

/-! ## Lemmas about the replacement dict -/

theorem lookupVal_isSome_of_mem :
    ∀ {repl : List (String × FNode)} {k : String},
      k ∈ repl.map Prod.fst → (lookupVal repl k).isSome = true := by
  intro repl
  induction repl with
  | nil => intro k h; simp at h
  | cons kv rest ih =>
    intro k h
    simp only [List.map_cons, List.mem_cons] at h
    by_cases he : kv.1 = k
    · cases kv; simp_all [lookupVal]
    · cases kv with
      | mk k₀ v =>
        simp only [lookupVal, if_neg he]
        exact ih (h.resolve_left (fun hh => he hh.symm))

theorem lookupVal_of_nodup :
    ∀ {repl : List (String × FNode)} {k : String} {v : FNode},
      (repl.map Prod.fst).Nodup → (k, v) ∈ repl → lookupVal repl k = some v := by
  intro repl
  induction repl with
  | nil => intro k v _ h; simp at h
  | cons kv rest ih =>
    intro k v hnd hmem
    simp only [List.map_cons, List.nodup_cons] at hnd
    rcases List.mem_cons.mp hmem with heq | htail
    · cases heq; simp [lookupVal]
    · cases kv with
      | mk k₀ v₀ =>
        have hne : k₀ ≠ k := by
          rintro rfl
          exact hnd.1 (List.mem_map.mpr ⟨(k₀, v), htail, rfl⟩)
        simp only [lookupVal, if_neg hne]
        exact ih hnd.2 htail

/-! ## Write-back concatenation: the textual content of a pattern under a
map `w` assigning a string to every element (text elements and literal
string placeables contribute their value; a replacement element is written
back as its placeholder key by a suitable `w`). -/

/-- Concatenated `w`-content of a list of pattern elements. -/
def wcharsElems (w : PatternElement → String) (l : List PatternElement) : List Char :=
  l.flatMap (fun e => (w e).data)

/-- Concatenated `w`-content of a list of flattenable nodes. -/
def wcharsNodes (w : PatternElement → String) (l : List FNode) : List Char :=
  l.flatMap (fun n =>
    match n with
    | .elem e => (w e).data
    | .expr ex => (w (.placeable ex)).data
    | .pat p => wcharsElems w p.elements)

/-- `w`-content of a whole pattern. -/
def patternTextW (w : PatternElement → String) (p : Pattern) : String :=
  String.mk (wcharsElems w p.elements)

theorem wcharsElems_flatten (w : PatternElement → String) :
    ∀ l : List FNode, wcharsElems w (Transform.flatten_elements l) = wcharsNodes w l := by
  intro l
  induction l with
  | nil => rfl
  | cons n rest ih =>
    cases n <;>
      simp_all [Transform.flatten_elements, wcharsElems, wcharsNodes]

theorem wchars_get_text {w : PatternElement → String}
    (hwt : ∀ v, w (.textElement v) = v)
    (hws : ∀ v, w (.placeable (.stringExpr v)) = v)
    {e : PatternElement} {t : String} (h : Transform.get_text e = some t) :
    (w e).data = t.data := by
  cases e with
  | textElement v =>
    simp only [Transform.get_text, Option.some.injEq] at h
    subst h; rw [hwt]
  | placeable ex =>
    cases ex with
    | stringExpr v =>
      simp only [Transform.get_text, Option.some.injEq] at h
      subst h; rw [hws]
    | selectExpr sel vs => simp [Transform.get_text] at h
    | external n => simp [Transform.get_text] at h

theorem wcharsElems_append (w : PatternElement → String) (l₁ l₂ : List PatternElement) :
    wcharsElems w (l₁ ++ l₂) = wcharsElems w l₁ ++ wcharsElems w l₂ := by
  simp [wcharsElems]

theorem wcharsElems_ntcStep {w : PatternElement → String}
    (hwt : ∀ v, w (.textElement v) = v)
    (hws : ∀ v, w (.placeable (.stringExpr v)) = v)
    (racc : List PatternElement) (e : PatternElement) :
    wcharsElems w (Transform.ntcStep racc e).reverse =
      wcharsElems w racc.reverse ++ (w e).data := by
  unfold Transform.ntcStep
  cases hg : Transform.get_text e with
  | none =>
    simp [wcharsElems_append, wcharsElems]
  | some t =>
    have hwe : (w e).data = t.data := wchars_get_text hwt hws hg
    match racc with
    | PatternElement.textElement pv :: rest =>
      have hd : (pv ++ t).data = pv.data ++ t.data := by cases pv; cases t; rfl
      simp only [List.reverse_cons, wcharsElems, List.flatMap_append,
        List.flatMap_cons, List.flatMap_nil, List.append_nil, hwt, hwe, hd,
        List.append_assoc]
    | [] =>
      by_cases ht : 0 < t.length
      · simp [ht, wcharsElems, hwt, hwe]
      · have : t = "" := by
          have : t.data = [] := by
            cases hd : t.data with
            | nil => rfl
            | cons c cs => exact absurd (by simp [String.length, hd]) ht
          exact string_data_eq_nil_iff.mp this
        subst this
        simp_all [wcharsElems]
    | PatternElement.placeable ex :: rest =>
      by_cases ht : 0 < t.length
      · simp [ht, wcharsElems_append, wcharsElems, hwt, hwe]
      · have : t = "" := by
          have : t.data = [] := by
            cases hd : t.data with
            | nil => rfl
            | cons c cs => exact absurd (by simp [String.length, hd]) ht
          exact string_data_eq_nil_iff.mp this
        subst this
        simp_all [wcharsElems]

theorem wcharsElems_foldl {w : PatternElement → String}
    (hwt : ∀ v, w (.textElement v) = v)
    (hws : ∀ v, w (.placeable (.stringExpr v)) = v) :
    ∀ (l racc : List PatternElement),
      wcharsElems w (l.foldl Transform.ntcStep racc).reverse =
        wcharsElems w racc.reverse ++ wcharsElems w l := by
  intro l
  induction l with
  | nil => intro racc; simp [wcharsElems]
  | cons e rest ih =>
    intro racc
    simp only [List.foldl_cons]
    rw [ih (Transform.ntcStep racc e), wcharsElems_ntcStep hwt hws]
    simp [wcharsElems, List.append_assoc]

theorem wcharsElems_normalize {w : PatternElement → String}
    (hwt : ∀ v, w (.textElement v) = v)
    (hws : ∀ v, w (.placeable (.stringExpr v)) = v)
    (l : List PatternElement) :
    wcharsElems w (Transform.normalize_text_content l) = wcharsElems w l := by
  unfold Transform.normalize_text_content
  rw [wcharsElems_foldl hwt hws]
  simp [wcharsElems]

theorem wcharsElems_preserve {w : PatternElement → String}
    (hwt : ∀ v, w (.textElement v) = v)
    (hws : ∀ v, w (.placeable (.stringExpr v)) = v)
    (l : List PatternElement) :
    wcharsElems w (Transform.preserve_whitespace l) = wcharsElems w l := by
  match l with
  | [] => simp [Transform.preserve_whitespace, wcharsElems, hws]
  | [PatternElement.textElement v] =>
    simp only [Transform.preserve_whitespace]
    split
    · simp [wcharsElems, hws, hwt]
    · rfl
  | [PatternElement.placeable ex] => rfl
  | e₁ :: e₂ :: rest => cases e₁ <;> rfl

/-! ## Normal form of `normalize_text_content` (for idempotence) -/

/-- Is the element a text element? -/
def isTextE : PatternElement → Bool
  | .textElement _ => true
  | .placeable _ => false

/-- The elements that can appear in the output of `normalize_text_content`:
non-empty text elements, and placeables not wrapping a string expression. -/
def pureElem : PatternElement → Bool
  | .textElement v => !v.data.isEmpty
  | .placeable (.stringExpr _) => false
  | .placeable _ => true

/-- No two adjacent text elements. -/
def notBothText (a b : PatternElement) : Prop :=
  ¬(isTextE a = true ∧ isTextE b = true)

theorem get_text_none_props {e : PatternElement}
    (h : Transform.get_text e = none) :
    pureElem e = true ∧ isTextE e = false := by
  cases e with
  | textElement v => simp [Transform.get_text] at h
  | placeable ex =>
    cases ex with
    | stringExpr v => simp [Transform.get_text] at h
    | selectExpr s vs => exact ⟨rfl, rfl⟩
    | external n => exact ⟨rfl, rfl⟩

/-- Invariant of the (reversed) `joined` accumulator. -/
def GoodAcc (racc : List PatternElement) : Prop :=
  (∀ e ∈ racc, pureElem e = true) ∧ List.Chain' notBothText racc

theorem string_pos_data {t : String} (h : 0 < t.length) : t.data.isEmpty = false := by
  cases t with
  | mk d =>
    cases d with
    | nil => exact absurd h (by decide)
    | cons c cs => rfl

/-- The branches of `ntcStep` as explicit equations (scrutinised on the
`get_text` result and the accumulator shape). -/
theorem ntcStep_none {racc : List PatternElement} {e : PatternElement}
    (hg : Transform.get_text e = none) :
    Transform.ntcStep racc e = e :: racc := by
  unfold Transform.ntcStep
  rw [hg]

theorem ntcStep_merge {rest : List PatternElement} {pv : String}
    {e : PatternElement} {t : String} (hg : Transform.get_text e = some t) :
    Transform.ntcStep (PatternElement.textElement pv :: rest) e =
      PatternElement.textElement (pv ++ t) :: rest := by
  unfold Transform.ntcStep
  rw [hg]

theorem ntcStep_nil {e : PatternElement} {t : String}
    (hg : Transform.get_text e = some t) :
    Transform.ntcStep [] e =
      if 0 < t.length then [PatternElement.textElement t] else [] := by
  unfold Transform.ntcStep
  rw [hg]

theorem ntcStep_placeable {rest : List PatternElement} {ex : Expression}
    {e : PatternElement} {t : String} (hg : Transform.get_text e = some t) :
    Transform.ntcStep (PatternElement.placeable ex :: rest) e =
      if 0 < t.length
      then PatternElement.textElement t :: PatternElement.placeable ex :: rest
      else PatternElement.placeable ex :: rest := by
  unfold Transform.ntcStep
  rw [hg]

theorem goodAcc_cons_nontext {racc : List PatternElement} {e : PatternElement}
    (h : GoodAcc racc) (he1 : pureElem e = true) (he2 : isTextE e = false) :
    GoodAcc (e :: racc) := by
  obtain ⟨hpure, hchain⟩ := h
  refine ⟨?_, ?_⟩
  · intro x hx
    rcases List.mem_cons.mp hx with rfl | hx
    · exact he1
    · exact hpure x hx
  · rw [List.chain'_cons']
    refine ⟨?_, hchain⟩
    intro y _ hc
    rw [he2] at hc
    exact absurd hc.1 (by simp)

theorem goodAcc_step {racc : List PatternElement} {e : PatternElement}
    (h : GoodAcc racc) : GoodAcc (Transform.ntcStep racc e) := by
  cases hg : Transform.get_text e with
  | none =>
    obtain ⟨he1, he2⟩ := get_text_none_props hg
    rw [ntcStep_none hg]
    exact goodAcc_cons_nontext h he1 he2
  | some t =>
    obtain ⟨hpure, hchain⟩ := h
    cases racc with
    | nil =>
      rw [ntcStep_nil hg]
      by_cases ht : 0 < t.length
      · rw [if_pos ht]
        refine ⟨?_, List.chain'_singleton _⟩
        intro x hx
        rcases List.mem_cons.mp hx with rfl | hx
        · simp [pureElem, string_pos_data ht]
        · simp at hx
      · rw [if_neg ht]
        exact ⟨by intro x hx; simp at hx, List.chain'_nil⟩
    | cons r0 rest =>
      cases r0 with
      | textElement pv =>
        rw [ntcStep_merge hg]
        have hpv : pureElem (PatternElement.textElement pv) = true :=
          hpure _ (List.mem_cons_self _ _)
        refine ⟨?_, ?_⟩
        · intro x hx
          rcases List.mem_cons.mp hx with rfl | hx
          · have hd : (pv ++ t).data = pv.data ++ t.data := by
              cases pv; cases t; rfl
            have hpv' : pv.data ≠ [] := by
              have := hpv
              simp only [pureElem, Bool.not_eq_true'] at this
              intro hc
              rw [hc] at this
              simp at this
            simp only [pureElem, hd]
            simp only [List.isEmpty_iff, List.append_eq_nil, Bool.not_eq_true',
              Bool.not_eq_false]
            simp [hpv']
          · exact hpure x (List.mem_cons_of_mem _ hx)
        · rw [List.chain'_cons'] at hchain ⊢
          refine ⟨?_, hchain.2⟩
          intro y hy hc
          exact hchain.1 y hy ⟨rfl, hc.2⟩
      | placeable ex =>
        rw [ntcStep_placeable hg]
        by_cases ht : 0 < t.length
        · rw [if_pos ht]
          refine ⟨?_, ?_⟩
          · intro x hx
            rcases List.mem_cons.mp hx with rfl | hx
            · simp [pureElem, string_pos_data ht]
            · exact hpure x hx
          · rw [List.chain'_cons']
            refine ⟨?_, hchain⟩
            intro y hy hc
            simp only [List.head?_cons, Option.mem_def, Option.some.injEq] at hy
            subst hy
            exact absurd hc.2 (by simp [isTextE])
        · rw [if_neg ht]
          exact ⟨hpure, hchain⟩

theorem goodAcc_foldl :
    ∀ (l racc : List PatternElement), GoodAcc racc →
      GoodAcc (l.foldl Transform.ntcStep racc) := by
  intro l
  induction l with
  | nil => intro racc h; exact h
  | cons e rest ih =>
    intro racc h
    exact ih _ (goodAcc_step h)

theorem ntc_replay :
    ∀ (m racc : List PatternElement),
      (∀ e ∈ m, pureElem e = true) → List.Chain' notBothText m →
      (∀ a, m.head? = some a → isTextE a = true →
        ∀ b, racc.head? = some b → isTextE b = false) →
      m.foldl Transform.ntcStep racc = m.reverse ++ racc := by
  intro m
  induction m with
  | nil => intro racc _ _ _; simp
  | cons e rest ih =>
    intro racc hpure hchain hside
    simp only [List.foldl_cons, List.reverse_cons, List.append_assoc,
      List.singleton_append]
    have hstep : Transform.ntcStep racc e = e :: racc := by
      cases hg : Transform.get_text e with
      | none => exact ntcStep_none hg
      | some t =>
        cases e with
        | placeable ex =>
          cases ex with
          | stringExpr v =>
            exact absurd (hpure _ (List.mem_cons_self _ _)) (by simp [pureElem])
          | selectExpr s vs => simp [Transform.get_text] at hg
          | external n => simp [Transform.get_text] at hg
        | textElement v =>
          have hv : v = t := by
            simpa [Transform.get_text] using hg
          subst hv
          have hvne : v.data.isEmpty = false := by
            simpa [pureElem] using hpure _ (List.mem_cons_self _ _)
          have hlen : 0 < v.length := by
            cases v with
            | mk d =>
              cases d with
              | nil => simp at hvne
              | cons c cs => simp [String.length]
          cases racc with
          | nil => rw [ntcStep_nil hg, if_pos hlen]
          | cons r0 rest' =>
            cases r0 with
            | textElement pv =>
              have hcontra := hside _ rfl rfl (PatternElement.textElement pv) rfl
              simp [isTextE] at hcontra
            | placeable ex => rw [ntcStep_placeable hg, if_pos hlen]
    rw [hstep]
    have hrest := ih (e :: racc)
      (fun x hx => hpure x (List.mem_cons_of_mem _ hx))
      ((List.chain'_cons'.mp hchain).2)
      (by
        intro a ha hta b hb
        simp only [List.head?_cons, Option.some.injEq] at hb
        subst hb
        have hrel := (List.chain'_cons'.mp hchain).1 a (by simp [ha])
        cases hte : isTextE e with
        | false => rfl
        | true => exact absurd ⟨hte, hta⟩ hrel)
    rw [hrest]

theorem goodAcc_reverse {racc : List PatternElement} (h : GoodAcc racc) :
    (∀ e ∈ racc.reverse, pureElem e = true) ∧
      List.Chain' notBothText racc.reverse := by
  obtain ⟨hpure, hchain⟩ := h
  refine ⟨?_, ?_⟩
  · intro e he
    exact hpure e (List.mem_reverse.mp he)
  · rw [List.chain'_reverse]
    exact hchain.imp (fun {a b} hab hc => hab ⟨hc.2, hc.1⟩)

theorem wchars_pattern_of {w : PatternElement → String}
    (hwt : ∀ v, w (.textElement v) = v)
    (hws : ∀ v, w (.placeable (.stringExpr v)) = v)
    (l : List FNode) :
    wcharsElems w (Transform.pattern_of l).elements = wcharsNodes w l := by
  unfold Transform.pattern_of
  show wcharsElems w (Transform.preserve_whitespace (Transform.normalize_text_content
    (Transform.flatten_elements l))) = wcharsNodes w l
  rw [wcharsElems_preserve hwt hws, wcharsElems_normalize hwt hws,
    wcharsElems_flatten]

/-! ## Claim theorems -/

/-- C7: `normalize_text_content` is idempotent: for every list of pattern
elements, applying it twice yields the same result as applying it once. -/
theorem C7_normalize_idempotent (elements : List PatternElement) :
    Transform.normalize_text_content (Transform.normalize_text_content elements) =
      Transform.normalize_text_content elements := by
  have hgood : GoodAcc (elements.foldl Transform.ntcStep []) :=
    goodAcc_foldl elements [] ⟨by intro e he; simp at he, List.chain'_nil⟩
  obtain ⟨hp, hc⟩ := goodAcc_reverse hgood
  show Transform.normalize_text_content
      ((elements.foldl Transform.ntcStep []).reverse) = _
  unfold Transform.normalize_text_content
  rw [ntc_replay _ [] hp hc (by intro a _ _ b hb; simp at hb)]
  simp

/-- C4: PLURALS with `plural_categories = ["one","few","many","other"]` and
source text `"one;other"` pairs categories with variants positionally,
truncating to the shorter list (`one` with `"one"`, `few` with `"other"`),
and the default category resolves to `other` (an extra default variant is
appended). -/
theorem C4_plurals_positional :
    defaultKeyOf ["one", "few", "many", "other"] = some "other" ∧
    (["one", "few", "many", "other"].zip (variantsOf "one;other") =
      [("one", PatternElement.textElement "one"),
       ("few", PatternElement.textElement "other")]) ∧
    ∀ sel : Expression,
      PLURALS_call ["one", "few", "many", "other"] sel "one;other"
        (fun e => Transform.pattern_of [.elem e]) =
      .ok (.mk [.placeable (.selectExpr sel
        [ .mk "one" (.mk [.textElement "one"]) false,
          .mk "few" (.mk [.textElement "other"]) false,
          .mk "other" (.mk [.textElement "other"]) true ])]) :=
  ⟨rfl, rfl, fun _ => rfl⟩

/-- C5: when the locale has exactly one plural category or the
semicolon-split source text yields exactly one variant, PLURALS emits no
select expression: the result is the builder applied to the first
variant. -/
theorem C5_plurals_single (keys : List String) (sel : Expression)
    (text : String) (f : PatternElement → Pattern)
    (h : keys.length = 1 ∨ (splitSemis text.data).length = 1) :
    PLURALS_call keys sel text f =
      .ok (f (.textElement (String.mk ((splitSemis text.data).headD [])))) := by
  cases hsp : splitSemis text.data with
  | nil => exact absurd hsp (splitSemis_ne_nil _)
  | cons g gs =>
    have hv : variantsOf text = PatternElement.textElement (String.mk g) ::
        gs.map (fun cs => PatternElement.textElement (String.mk cs)) := by
      unfold variantsOf
      rw [hsp]
      rfl
    have hcond : keys.length = 1 ∨ (variantsOf text).length = 1 := by
      rcases h with h | h
      · exact Or.inl h
      · right
        unfold variantsOf
        rw [hsp]
        rw [hsp] at h
        simpa using h
    unfold PLURALS_call
    rw [if_pos hcond, hv]
    rfl

/-- Witness for C5 at a concrete input. -/
theorem C5_witness :
    (["other"].length = 1 ∨ (splitSemis "one thing".data).length = 1) ∧
    PLURALS_call ["other"] (.external "n") "one thing"
        (fun e => Transform.pattern_of [.elem e]) =
      .ok (Transform.pattern_of
        [.elem (.textElement (String.mk ((splitSemis "one thing".data).headD [])))]) :=
  ⟨Or.inl rfl, C5_plurals_single ["other"] (.external "n") "one thing"
    (fun e => Transform.pattern_of [.elem e]) (Or.inl rfl)⟩

/-- C6: `pattern_of` with no elements yields a single placeable wrapping an
empty literal-string expression, and `pattern_of` on a single text element
with empty or whitespace-only value yields a single placeable wrapping a
literal-string expression carrying that same value. -/
theorem C6_pattern_of_whitespace :
    Transform.pattern_of [] = Pattern.mk [.placeable (.stringExpr "")] ∧
    ∀ v : String, isWsOnly v = true →
      Transform.pattern_of [.elem (.textElement v)] =
        Pattern.mk [.placeable (.stringExpr v)] := by
  refine ⟨rfl, ?_⟩
  intro v hw
  by_cases hv : v = ""
  · subst hv; rfl
  · have hlen : 0 < v.length := string_length_pos_of_ne hv
    unfold Transform.pattern_of
    have hflat : Transform.flatten_elements [.elem (.textElement v)] =
        [PatternElement.textElement v] := rfl
    rw [hflat]
    have hnorm : Transform.normalize_text_content [PatternElement.textElement v] =
        [PatternElement.textElement v] := by
      unfold Transform.normalize_text_content
      simp only [List.foldl_cons, List.foldl_nil]
      rw [ntcStep_nil (e := .textElement v) rfl, if_pos hlen]
      rfl
    rw [hnorm]
    have hpres : Transform.preserve_whitespace [PatternElement.textElement v] =
        if isWsOnly v then [.placeable (.stringExpr v)]
        else [PatternElement.textElement v] := rfl
    rw [hpres, if_pos hw]

/-- Witness for C6 at a concrete whitespace-only input. -/
theorem C6_witness :
    isWsOnly "   " = true ∧
    Transform.pattern_of [.elem (.textElement "   ")] =
      Pattern.mk [.placeable (.stringExpr "   ")] :=
  ⟨by decide, C6_pattern_of_whitespace.2 "   " (by decide)⟩

/-- Counterexample to C8 as stated: a sole empty text element does NOT
survive `normalize_text_content` — the output is empty (the
whitespace-preservation step later reconstructs the empty value from the
empty list, not from a surviving element). -/
theorem C8_counterexample :
    Transform.normalize_text_content [PatternElement.textElement ""] = [] ∧
    PatternElement.textElement "" ∉
      Transform.normalize_text_content [PatternElement.textElement ""] := by
  have h : Transform.normalize_text_content [PatternElement.textElement ""] = [] := rfl
  refine ⟨h, ?_⟩
  rw [h]
  exact List.not_mem_nil _

/-- C8 (amended): a zero-length textual contribution is always dropped (or
merged invisibly into a preceding text element) by `normalize_text_content`,
even when it is the only element; the whitespace-preservation step of
`pattern_of` then reconstructs the empty value from the empty element
list. -/
theorem C8_empty_contribution_dropped (l : List PatternElement)
    (e : PatternElement) (h : Transform.get_text e = some "") :
    Transform.normalize_text_content (l ++ [e]) =
      Transform.normalize_text_content l ∧
    Transform.pattern_of [.elem e] = Pattern.mk [.placeable (.stringExpr "")] := by
  constructor
  · unfold Transform.normalize_text_content
    rw [List.foldl_append]
    simp only [List.foldl_cons, List.foldl_nil]
    congr 1
    cases hracc : l.foldl Transform.ntcStep [] with
    | nil =>
      rw [ntcStep_nil h]
      simp
    | cons r0 rest =>
      cases r0 with
      | textElement pv => rw [ntcStep_merge h, string_append_empty_right]
      | placeable ex =>
        rw [ntcStep_placeable h]
        simp
  · cases e with
    | textElement v =>
      have hv : v = "" := by simpa [Transform.get_text] using h
      subst hv; rfl
    | placeable ex =>
      cases ex with
      | stringExpr v =>
        have hv : v = "" := by simpa [Transform.get_text] using h
        subst hv; rfl
      | selectExpr s vs => simp [Transform.get_text] at h
      | external n => simp [Transform.get_text] at h

/-- Witness for the amended C8 at a concrete input. -/
theorem C8_witness :
    Transform.get_text (PatternElement.placeable (Expression.stringExpr "")) =
      some "" ∧
    (Transform.normalize_text_content ([PatternElement.textElement "a"] ++
        [PatternElement.placeable (Expression.stringExpr "")]) =
      Transform.normalize_text_content [PatternElement.textElement "a"] ∧
    Transform.pattern_of [.elem (.placeable (.stringExpr ""))] =
      Pattern.mk [.placeable (.stringExpr "")]) :=
  ⟨rfl, C8_empty_contribution_dropped [PatternElement.textElement "a"]
    (PatternElement.placeable (Expression.stringExpr "")) rfl⟩

/-- C9: constructing a `Source` — and hence a `COPY`, `REPLACE` or
`PLURALS` — with a path ending in the Fluent extension fails at construction
time with the unsupported-source condition (the `Except.error` result of the
constructor itself), for any key; evaluation is never reached. -/
theorem C9_source_init_rejects (path key : String)
    (h : pyEndsWith path ".ftl" = true) :
    Source_init path key = .error (NotSupportedErrorMsg path) ∧
    COPY_init path key = .error (NotSupportedErrorMsg path) ∧
    (∀ repl, REPLACE_init path key repl = .error (NotSupportedErrorMsg path)) ∧
    (∀ sel f, PLURALS_init path key sel f = .error (NotSupportedErrorMsg path)) := by
  have hs : Source_init path key = .error (NotSupportedErrorMsg path) := by
    unfold Source_init
    rw [if_pos h]
  refine ⟨hs, hs, ?_, ?_⟩
  · intro repl
    unfold REPLACE_init
    rw [hs]
    rfl
  · intro sel f
    unfold PLURALS_init
    rw [hs]
    rfl

/-- Witness for C9 at a concrete path. -/
theorem C9_witness :
    pyEndsWith "browser.ftl" ".ftl" = true ∧
    Source_init "browser.ftl" "k" = .error (NotSupportedErrorMsg "browser.ftl") :=
  ⟨by decide, (C9_source_init_rejects "browser.ftl" "k" (by decide)).1⟩

/-- Branch equations for `replaceLoop`. -/
theorem replaceLoop_cons_found {repl : List (String × FNode)} {k : String}
    {ks : List String} {tail : List Char} {ba : List Char × List Char}
    {r : FNode} (hk : ¬(k.data.isEmpty = true))
    (hsf : splitFirst k.data tail = some ba)
    (hr : lookupVal repl k = some r) :
    replaceLoop repl (k :: ks) tail =
      (replaceLoop repl ks ba.2).map
        (fun rest => .elem (.textElement (String.mk ba.1)) :: r :: rest) := by
  conv_lhs => rw [replaceLoop]
  rw [if_neg hk, hsf, hr]

theorem replaceLoop_cons_notfound {repl : List (String × FNode)} {k : String}
    {ks : List String} {tail : List Char} {r : FNode}
    (hk : ¬(k.data.isEmpty = true))
    (hsf : splitFirst k.data tail = none)
    (hr : lookupVal repl "" = some r) :
    replaceLoop repl (k :: ks) tail =
      (replaceLoop repl ks []).map
        (fun rest => .elem (.textElement (String.mk tail)) :: r :: rest) := by
  conv_lhs => rw [replaceLoop]
  rw [if_neg hk, hsf, hr]

theorem replaceLoop_error_of_empty_key :
    ∀ (ks : List String) (repl : List (String × FNode)) (tail : List Char),
      "" ∈ ks →
      (∀ k ∈ ks, (lookupVal repl k).isSome = true) →
      (lookupVal repl "").isSome = true →
      replaceLoop repl ks tail = .error .valueError := by
  intro ks
  induction ks with
  | nil =>
    intro repl tail h _ _
    simp at h
  | cons k ks ih =>
    intro repl tail hmem hlu hlu0
    by_cases hk : k = ""
    · subst hk
      unfold replaceLoop
      rw [if_pos (show ("" : String).data.isEmpty = true from rfl)]
    · have hmem' : "" ∈ ks := by
        rcases List.mem_cons.mp hmem with h | h
        · exact absurd h.symm hk
        · exact h
      have hkdata : ¬(k.data.isEmpty = true) := by
        intro hc
        exact hk (string_data_eq_nil_iff.mp (List.isEmpty_iff.mp hc))
      have hlu' : ∀ k' ∈ ks, (lookupVal repl k').isSome = true :=
        fun k' hk' => hlu k' (List.mem_cons_of_mem _ hk')
      cases hsf : splitFirst k.data tail with
      | some ba =>
        obtain ⟨r, hr⟩ := Option.isSome_iff_exists.mp
          (hlu k (List.mem_cons_self _ _))
        rw [replaceLoop_cons_found hkdata hsf hr,
          ih repl ba.2 hmem' hlu' hlu0]
        rfl
      | none =>
        obtain ⟨r, hr⟩ := Option.isSome_iff_exists.mp hlu0
        rw [replaceLoop_cons_notfound hkdata hsf hr,
          ih repl [] hmem' hlu' hlu0]
        rfl

/-- C10: whenever the replacements mapping contains the empty string as a
placeholder key, REPLACE_IN_TEXT evaluation raises for any text: the empty
key passes the occurs-in-text filter, but partitioning the remaining tail on
an empty separator raises ValueError. -/
theorem C10_empty_key_raises (t : String) (repl : List (String × FNode))
    (h : "" ∈ repl.map Prod.fst) :
    REPLACE_IN_TEXT_call t repl = .error .valueError := by
  have hsurv : "" ∈ (survivingRepl t repl).map Prod.fst := by
    rcases List.mem_map.mp h with ⟨kv, hkv, hfst⟩
    refine List.mem_map.mpr ⟨kv, List.mem_filter.mpr ⟨hkv, ?_⟩, hfst⟩
    show charsOccurs kv.1.data t.data = true
    rw [hfst]
    exact charsOccurs_nil_key _
  have hkey : "" ∈ keysInOrder t repl := by
    unfold keysInOrder
    rw [List.mem_insertionSort]
    exact hsurv
  have hlu : ∀ k ∈ keysInOrder t repl,
      (lookupVal (survivingRepl t repl) k).isSome = true := by
    intro k hk
    unfold keysInOrder at hk
    rw [List.mem_insertionSort] at hk
    exact lookupVal_isSome_of_mem hk
  unfold REPLACE_IN_TEXT_call
  rw [replaceLoop_error_of_empty_key _ _ _ hkey hlu
    (lookupVal_isSome_of_mem hsurv)]
  rfl

/-- Witness for C10 at a concrete input. -/
theorem C10_witness :
    ("" ∈ ([("", FNode.expr (.external "n"))].map Prod.fst)) ∧
    REPLACE_IN_TEXT_call "b" [("", FNode.expr (.external "n"))] =
      .error .valueError :=
  ⟨by decide, C10_empty_key_raises "b" [("", FNode.expr (.external "n"))]
    (by decide)⟩

/-- The per-step success condition of the partition loop: every key is
found in the tail remaining after the previous keys were consumed. -/
def occChain : List String → List Char → Prop
  | [], _ => True
  | k :: ks, t =>
    match splitFirst k.data t with
    | some ba => occChain ks ba.2
    | none => False

theorem occChain_cons {k : String} {ks : List String} {t : List Char}
    {ba : List Char × List Char} (hsf : splitFirst k.data t = some ba)
    (h : occChain ks ba.2) : occChain (k :: ks) t := by
  unfold occChain
  rw [hsf]
  exact h

/-- Under `occChain`, the loop succeeds and its output concatenates (under a
write-back map sending each replacement element to its key) to exactly the
input tail. -/
theorem replaceLoop_ok {w : PatternElement → String}
    (hwt : ∀ v, w (.textElement v) = v)
    (repl : List (String × FNode)) :
    ∀ (ks : List String) (t : List Char),
      occChain ks t →
      (∀ k ∈ ks, k ≠ "") →
      (∀ k ∈ ks, ∃ e, lookupVal repl k = some (FNode.elem e) ∧
        (w e).data = k.data) →
      ∃ els, replaceLoop repl ks t = .ok els ∧ wcharsNodes w els = t := by
  intro ks
  induction ks with
  | nil =>
    intro t _ _ _
    refine ⟨_, rfl, ?_⟩
    simp [wcharsNodes, hwt]
  | cons k ks ih =>
    intro t hocc hne hlu
    have hkne : k ≠ "" := hne k (List.mem_cons_self _ _)
    have hkdata : ¬(k.data.isEmpty = true) := by
      intro hc
      exact hkne (string_data_eq_nil_iff.mp (List.isEmpty_iff.mp hc))
    unfold occChain at hocc
    cases hsf : splitFirst k.data t with
    | none => rw [hsf] at hocc; exact hocc.elim
    | some ba =>
      rw [hsf] at hocc
      obtain ⟨e, hlk, hwe⟩ := hlu k (List.mem_cons_self _ _)
      obtain ⟨els, hels, hw⟩ := ih ba.2 hocc
        (fun k' hk' => hne k' (List.mem_cons_of_mem _ hk'))
        (fun k' hk' => hlu k' (List.mem_cons_of_mem _ hk'))
      refine ⟨FNode.elem (.textElement (String.mk ba.1)) :: FNode.elem e :: els,
        ?_, ?_⟩
      · rw [replaceLoop_cons_found hkdata hsf hlk, hels]
        rfl
      · have hdec : ba.1 ++ k.data ++ ba.2 = t := by
          cases ba with
          | mk b a => exact splitFirst_append hsf
        show (w (.textElement (String.mk ba.1))).data ++
            ((w e).data ++ wcharsNodes w els) = t
        rw [hwt, hwe, hw]
        show ba.1 ++ (k.data ++ ba.2) = t
        rw [← List.append_assoc]
        exact hdec

/-- If every key is non-empty and occurs in `t`, and consecutive keys have
separated first occurrences (`fo k₁ + len k₁ ≤ fo k₂`), the partition loop
finds every key. -/
theorem occChain_of_sepPairwise :
    ∀ (ks : List String) (t : List Char),
      (∀ k ∈ ks, k.data ≠ []) →
      (∀ k ∈ ks, ∃ p, charsFind k.data t = some p) →
      List.Pairwise (fun k₁ k₂ => ∀ p₁ p₂, charsFind k₁.data t = some p₁ →
        charsFind k₂.data t = some p₂ → p₁ + k₁.data.length ≤ p₂) ks →
      occChain ks t := by
  intro ks
  induction ks with
  | nil => intro t _ _ _; trivial
  | cons k ks ih =>
    intro t hne hfind hpw
    obtain ⟨p, hp⟩ := hfind k (List.mem_cons_self _ _)
    have hkne : k.data ≠ [] := hne k (List.mem_cons_self _ _)
    have hsf := splitFirst_of_charsFind hkne hp
    rcases List.pairwise_cons.mp hpw with ⟨hhead, htail⟩
    refine occChain_cons hsf ?_
    show occChain ks (t.drop (p + k.data.length))
    refine ih (t.drop (p + k.data.length))
      (fun k' hk' => hne k' (List.mem_cons_of_mem _ hk')) ?_ ?_
    · intro k' hk'
      obtain ⟨p', hp'⟩ := hfind k' (List.mem_cons_of_mem _ hk')
      exact ⟨p' - (p + k.data.length),
        charsFind_drop hp' (hhead k' hk' p p' hp hp')⟩
    · refine htail.imp_of_mem ?_
      intro a b ha hb hab q₁ q₂ hq₁ hq₂
      obtain ⟨pa, hpa⟩ := hfind a (List.mem_cons_of_mem _ ha)
      obtain ⟨pb, hpb⟩ := hfind b (List.mem_cons_of_mem _ hb)
      have hsa : p + k.data.length ≤ pa := hhead a ha p pa hp hpa
      have hsb : p + k.data.length ≤ pb := hhead b hb p pb hp hpb
      have ha2 := charsFind_drop hpa hsa
      have hb2 := charsFind_drop hpb hsb
      rw [ha2] at hq₁
      rw [hb2] at hq₂
      cases hq₁
      cases hq₂
      have hab' := hab pa pb hpa hpb
      omega

/-- Counterexample to C2 as stated: the empty placeholder key occurs in
every text (and its zero-width first occurrence overlaps no other
occurrence), yet evaluation raises ValueError instead of producing a
pattern, so no concatenation of a resulting pattern can reproduce the
text. -/
theorem C2_counterexample :
    charsOccurs "".data "a".data = true ∧
    REPLACE_IN_TEXT_call "a" [("", FNode.expr (.external "x"))] =
      .error .valueError :=
  ⟨rfl, rfl⟩

/-- C2 (amended with non-empty keys): for every text and every replacements
mapping with distinct non-empty keys that all occur in the text with
pairwise disjoint first-occurrence spans, REPLACE_IN_TEXT succeeds, and
concatenating the textual content of the resulting pattern — any write-back
map `w` that reads text elements and literal string placeables as their
value and writes each replacement element back as its placeholder key —
reproduces the text exactly. -/
theorem C2_replace_roundtrip (t : String) (repl : List (String × FNode))
    (w : PatternElement → String)
    (hnd : (repl.map Prod.fst).Nodup)
    (hocc : ∀ kv ∈ repl, kv.1 ≠ "" ∧ charsOccurs kv.1.data t.data = true)
    (hdisj : List.Pairwise (fun kv₁ kv₂ =>
      ∀ p₁ p₂, charsFind kv₁.1.data t.data = some p₁ →
        charsFind kv₂.1.data t.data = some p₂ →
        p₁ + kv₁.1.data.length ≤ p₂ ∨ p₂ + kv₂.1.data.length ≤ p₁) repl)
    (hwt : ∀ v, w (.textElement v) = v)
    (hws : ∀ v, w (.placeable (.stringExpr v)) = v)
    (hwr : ∀ kv ∈ repl, ∃ e, kv.2 = FNode.elem e ∧ w e = kv.1) :
    ∃ p, REPLACE_IN_TEXT_call t repl = .ok p ∧ patternTextW w p = t := by
  have hsurv : survivingRepl t repl = repl := by
    unfold survivingRepl
    rw [List.filter_eq_self]
    intro kv hkv
    exact (hocc kv hkv).2
  have hkeysdef : keysInOrder t repl = List.insertionSort
      (fun a b => foD t a ≤ foD t b) (repl.map Prod.fst) := by
    unfold keysInOrder
    rw [hsurv]
  have hperm : List.Perm (keysInOrder t repl) (repl.map Prod.fst) := by
    rw [hkeysdef]
    exact List.perm_insertionSort _ _
  have hmem : ∀ k ∈ keysInOrder t repl, ∃ kv ∈ repl, kv.1 = k := by
    intro k hk
    have hk2 : k ∈ repl.map Prod.fst := hperm.mem_iff.mp hk
    rcases List.mem_map.mp hk2 with ⟨kv, hkv, hfst⟩
    exact ⟨kv, hkv, hfst⟩
  have hne : ∀ k ∈ keysInOrder t repl, k.data ≠ [] := by
    intro k hk
    obtain ⟨kv, hkv, rfl⟩ := hmem k hk
    intro hc
    exact (hocc kv hkv).1 (string_data_eq_nil_iff.mp hc)
  have hfind : ∀ k ∈ keysInOrder t repl,
      ∃ p, charsFind k.data t.data = some p := by
    intro k hk
    obtain ⟨kv, hkv, rfl⟩ := hmem k hk
    have h2 := (hocc kv hkv).2
    unfold charsOccurs at h2
    exact Option.isSome_iff_exists.mp h2
  have hdisjK : List.Pairwise (fun x y =>
      ∀ p₁ p₂, charsFind x.data t.data = some p₁ →
        charsFind y.data t.data = some p₂ →
        p₁ + x.data.length ≤ p₂ ∨ p₂ + y.data.length ≤ p₁)
      (repl.map Prod.fst) := by
    rw [List.pairwise_map]
    exact hdisj
  have hdisjKeys : List.Pairwise (fun x y =>
      ∀ p₁ p₂, charsFind x.data t.data = some p₁ →
        charsFind y.data t.data = some p₂ →
        p₁ + x.data.length ≤ p₂ ∨ p₂ + y.data.length ≤ p₁)
      (keysInOrder t repl) := by
    refine (hperm.pairwise_iff ?_).mpr hdisjK
    intro x y hxy p₁ p₂ hp₁ hp₂
    exact (hxy p₂ p₁ hp₂ hp₁).symm
  have hsorted : List.Pairwise (fun x y => foD t x ≤ foD t y)
      (keysInOrder t repl) := by
    rw [hkeysdef]
    haveI : IsTotal String (fun x y => foD t x ≤ foD t y) :=
      ⟨fun x y => Nat.le_total _ _⟩
    haveI : IsTrans String (fun x y => foD t x ≤ foD t y) :=
      ⟨fun x y z hxy hyz => Nat.le_trans hxy hyz⟩
    exact List.sorted_insertionSort _ _
  have hsep : List.Pairwise (fun k₁ k₂ =>
      ∀ p₁ p₂, charsFind k₁.data t.data = some p₁ →
        charsFind k₂.data t.data = some p₂ →
        p₁ + k₁.data.length ≤ p₂) (keysInOrder t repl) := by
    refine (hsorted.and hdisjKeys).imp_of_mem ?_
    intro a b ha hb hab p₁ p₂ hp₁ hp₂
    obtain ⟨hle, hor⟩ := hab
    have hfoa : foD t a = p₁ := by unfold foD; rw [hp₁]; rfl
    have hfob : foD t b = p₂ := by unfold foD; rw [hp₂]; rfl
    rw [hfoa, hfob] at hle
    have hblen : 0 < b.data.length := List.length_pos.mpr (hne b hb)
    rcases hor p₁ p₂ hp₁ hp₂ with h | h
    · exact h
    · omega
  have hocc2 : occChain (keysInOrder t repl) t.data :=
    occChain_of_sepPairwise _ t.data hne hfind hsep
  have hlu : ∀ k ∈ keysInOrder t repl, ∃ e,
      lookupVal repl k = some (FNode.elem e) ∧ (w e).data = k.data := by
    intro k hk
    obtain ⟨kv, hkv, rfl⟩ := hmem k hk
    obtain ⟨e, hv, hwke⟩ := hwr kv hkv
    have hkv2 : (kv.1, FNode.elem e) ∈ repl := by
      have hkveq : kv = (kv.1, FNode.elem e) := by
        cases kv with
        | mk k₀ v₀ => simp only at hv; rw [hv]
      rw [← hkveq]
      exact hkv
    exact ⟨e, lookupVal_of_nodup hnd hkv2, by rw [hwke]⟩
  have hne' : ∀ k ∈ keysInOrder t repl, k ≠ "" := by
    intro k hk hc
    refine hne k hk ?_
    rw [hc]
  obtain ⟨els, hels, hw⟩ :=
    replaceLoop_ok hwt repl (keysInOrder t repl) t.data hocc2 hne' hlu
  refine ⟨Transform.pattern_of els, ?_, ?_⟩
  · unfold REPLACE_IN_TEXT_call
    rw [hsurv, hels]
    rfl
  · unfold patternTextW
    rw [wchars_pattern_of hwt hws, hw]

/-- Witness for the amended C2 at a concrete input. -/
theorem C2_witness :
    ∃ p, REPLACE_IN_TEXT_call "a#1b"
        [("#1", FNode.elem (.placeable (.external "num")))] = .ok p ∧
      patternTextW (fun e =>
        match e with
        | .textElement v => v
        | .placeable (.stringExpr v) => v
        | .placeable _ => "#1") p = "a#1b" := by
  refine C2_replace_roundtrip "a#1b"
    [("#1", FNode.elem (.placeable (.external "num")))] _ ?_ ?_ ?_ ?_ ?_ ?_
  · decide
  · intro kv hkv
    rw [List.mem_singleton] at hkv
    subst hkv
    exact ⟨by decide, by decide⟩
  · exact List.pairwise_singleton _ _
  · intro v; rfl
  · intro v; rfl
  · intro kv hkv
    rw [List.mem_singleton] at hkv
    subst hkv
    exact ⟨.placeable (.external "num"), rfl, rfl⟩

/-- C3: a mapping entry whose key does not occur in the text is silently
discarded (inserting or removing it does not change the evaluation result
and raises nothing); the surviving keys are processed in ascending order of
first occurrence (the processed key list is a permutation of the surviving
keys, weakly sorted by first-occurrence position); and the partition step
consumes exactly the first occurrence of the key in the not-yet-consumed
tail (it decomposes the tail around an occurrence no later than any other
occurrence). -/
theorem C3_replace_order (t : String) (repl₁ repl₂ : List (String × FNode))
    (k : String) (v : FNode) (repl : List (String × FNode))
    (key tail b a : List Char) (q : Nat)
    (hk : charsOccurs k.data t.data = false)
    (hs : splitFirst key tail = some (b, a))
    (hq : key.isPrefixOf (tail.drop q) = true) :
    REPLACE_IN_TEXT_call t (repl₁ ++ (k, v) :: repl₂) =
      REPLACE_IN_TEXT_call t (repl₁ ++ repl₂) ∧
    List.Perm (keysInOrder t repl) ((survivingRepl t repl).map Prod.fst) ∧
    List.Pairwise (fun x y => foD t x ≤ foD t y) (keysInOrder t repl) ∧
    b ++ key ++ a = tail ∧
    b.length ≤ q := by
  refine ⟨?_, ?_, ?_, splitFirst_append hs, splitFirst_min hs q hq⟩
  · have hset : survivingRepl t (repl₁ ++ (k, v) :: repl₂) =
        survivingRepl t (repl₁ ++ repl₂) := by
      unfold survivingRepl
      simp [List.filter_append, List.filter_cons, hk]
    unfold REPLACE_IN_TEXT_call keysInOrder
    rw [hset]
  · exact List.perm_insertionSort _ _
  · haveI : IsTotal String (fun x y => foD t x ≤ foD t y) :=
      ⟨fun x y => Nat.le_total _ _⟩
    haveI : IsTrans String (fun x y => foD t x ≤ foD t y) :=
      ⟨fun x y z hxy hyz => Nat.le_trans hxy hyz⟩
    exact List.sorted_insertionSort _ _

/-- Witness for C3 at a concrete input. -/
theorem C3_witness :
    REPLACE_IN_TEXT_call "x#1y"
        ([("#1", FNode.expr (.external "n"))] ++
          ("zz", FNode.expr (.external "m")) :: []) =
      REPLACE_IN_TEXT_call "x#1y" ([("#1", FNode.expr (.external "n"))] ++ []) ∧
    List.Perm (keysInOrder "x#1y" [("#1", FNode.expr (.external "n"))])
      ((survivingRepl "x#1y" [("#1", FNode.expr (.external "n"))]).map Prod.fst) ∧
    List.Pairwise (fun x y => foD "x#1y" x ≤ foD "x#1y" y)
      (keysInOrder "x#1y" [("#1", FNode.expr (.external "n"))]) ∧
    "x".data ++ "#1".data ++ "y".data = "x#1y".data ∧
    "x".data.length ≤ 1 :=
  C3_replace_order "x#1y" [("#1", FNode.expr (.external "n"))] []
    "zz" (FNode.expr (.external "m")) [("#1", FNode.expr (.external "n"))]
    "#1".data "x#1y".data "x".data "y".data 1
    (by decide) (by decide) (by decide)

/-! ## Lemmas for the PLURALS default-variant invariant -/

theorem filterHead_min :
    ∀ (R ks : List String),
      (∃ d, d ∈ R ∧ d ∈ ks) →
      ∃ dk, (R.filter (fun k => ks.contains k)).head? = some dk ∧
        dk ∈ R ∧ dk ∈ ks ∧
        ∀ d ∈ R, d ∈ ks → R.indexOf dk ≤ R.indexOf d := by
  intro R
  induction R with
  | nil =>
    intro ks h
    rcases h with ⟨d, hd, _⟩
    simp at hd
  | cons r R ih =>
    intro ks h
    by_cases hr : r ∈ ks
    · refine ⟨r, ?_, List.mem_cons_self _ _, hr, ?_⟩
      · have hc : ks.contains r = true := by
          simpa [List.contains] using hr
        rw [List.filter_cons, if_pos hc]
        rfl
      · intro d hd hdk
        rw [List.indexOf_cons_self]
        exact Nat.zero_le _
    · have h' : ∃ d, d ∈ R ∧ d ∈ ks := by
        rcases h with ⟨d, hd, hdk⟩
        rcases List.mem_cons.mp hd with rfl | hd2
        · exact absurd hdk hr
        · exact ⟨d, hd2, hdk⟩
      obtain ⟨dk, hhead, hdkR, hdkK, hmin⟩ := ih ks h'
      refine ⟨dk, ?_, List.mem_cons_of_mem _ hdkR, hdkK, ?_⟩
      · have hc : ks.contains r = false := by
          simpa [List.contains] using hr
        rw [List.filter_cons, if_neg (by simpa using hr)]
        exact hhead
      · intro d hd hdks
        rcases List.mem_cons.mp hd with rfl | hd2
        · exact absurd hdks hr
        · have h1 : r ≠ dk := by rintro rfl; exact hr hdkK
          have h2 : r ≠ d := by rintro rfl; exact hr hdks
          rw [List.indexOf_cons_ne _ h1, List.indexOf_cons_ne _ h2]
          exact Nat.succ_le_succ (hmin d hd2 hdks)

theorem mem_DEFAULT_ORDER_cases {a : String} (h : a ∈ DEFAULT_ORDER) :
    a = "zero" ∨ a = "one" ∨ a = "two" ∨ a = "few" ∨ a = "many" ∨
      a = "other" := by
  simpa [DEFAULT_ORDER] using h

theorem revIdx_le_iff {a b : String} (ha : a ∈ DEFAULT_ORDER)
    (hb : b ∈ DEFAULT_ORDER) :
    DEFAULT_ORDER.reverse.indexOf a ≤ DEFAULT_ORDER.reverse.indexOf b ↔
      orderIndex b ≤ orderIndex a := by
  rcases mem_DEFAULT_ORDER_cases ha with rfl | rfl | rfl | rfl | rfl | rfl <;>
    rcases mem_DEFAULT_ORDER_cases hb with rfl | rfl | rfl | rfl | rfl | rfl <;>
    decide

theorem orderIndex_inj {a b : String} (ha : a ∈ DEFAULT_ORDER)
    (hb : b ∈ DEFAULT_ORDER) (h : orderIndex a = orderIndex b) : a = b := by
  rcases mem_DEFAULT_ORDER_cases ha with rfl | rfl | rfl | rfl | rfl | rfl <;>
    rcases mem_DEFAULT_ORDER_cases hb with rfl | rfl | rfl | rfl | rfl | rfl <;>
    first
      | rfl
      | exact absurd h (by decide)

theorem defaultKeyOf_spec {keys : List String} (hne : keys ≠ [])
    (hmem : ∀ k ∈ keys, k ∈ DEFAULT_ORDER) :
    ∃ dk, defaultKeyOf keys = some dk ∧ dk ∈ keys ∧ dk ∈ DEFAULT_ORDER ∧
      ∀ k ∈ keys, orderIndex k ≤ orderIndex dk := by
  have hex : ∃ d, d ∈ DEFAULT_ORDER.reverse ∧ d ∈ keys := by
    cases keys with
    | nil => exact absurd rfl hne
    | cons k ks =>
      exact ⟨k, List.mem_reverse.mpr (hmem k (List.mem_cons_self _ _)),
        List.mem_cons_self _ _⟩
  obtain ⟨dk, hhead, hdkR, hdkK, hmin⟩ :=
    filterHead_min DEFAULT_ORDER.reverse keys hex
  refine ⟨dk, hhead, hdkK, List.mem_reverse.mp hdkR, ?_⟩
  intro k hk
  have hkD := hmem k hk
  have h2 := hmin k (List.mem_reverse.mpr hkD) hk
  exact (revIdx_le_iff (List.mem_reverse.mp hdkR) hkD).mp h2

theorem zip_map_fst :
    ∀ (ks : List String) (vs : List PatternElement),
      (ks.zip vs).map Prod.fst = ks.take vs.length := by
  intro ks
  induction ks with
  | nil => intro vs; simp
  | cons k ks ih =>
    intro vs
    cases vs with
    | nil => simp
    | cons v vs => simp [ih]

theorem mem_of_getLastQ {α : Type _} :
    ∀ (l : List α) (a : α), l.getLast? = some a → a ∈ l := by
  intro l
  induction l with
  | nil => intro a h; cases h
  | cons x l ih =>
    intro a h
    cases l with
    | nil =>
      simp only [List.getLast?_singleton, Option.some.injEq] at h
      subst h
      exact List.mem_cons_self _ _
    | cons y l' =>
      rw [List.getLast?_cons_cons] at h
      exact List.mem_cons_of_mem _ (ih a h)

theorem pairwise_getLast_max {α : Type _} (f : α → Nat) :
    ∀ (l : List α) (last : α), List.Pairwise (fun a b => f a ≤ f b) l →
      l.getLast? = some last → ∀ x ∈ l, f x ≤ f last := by
  intro l
  induction l with
  | nil => intro last _ h; cases h
  | cons a l ih =>
    intro last hpw hlast x hx
    cases l with
    | nil =>
      simp only [List.getLast?_singleton, Option.some.injEq] at hlast
      subst hlast
      rcases List.mem_cons.mp hx with rfl | hx2
      · exact Nat.le_refl _
      · simp at hx2
    | cons b l' =>
      rw [List.getLast?_cons_cons] at hlast
      rcases List.pairwise_cons.mp hpw with ⟨hhead, htail⟩
      rcases List.mem_cons.mp hx with rfl | hx2
      · exact hhead last (mem_of_getLastQ _ _ hlast)
      · exact ih last htail hlast x hx2

theorem getLastQ_some {α : Type _} :
    ∀ (l : List α), l ≠ [] → ∃ a, l.getLast? = some a := by
  intro l
  induction l with
  | nil => intro h; exact absurd rfl h
  | cons x l ih =>
    intro _
    cases l with
    | nil => exact ⟨x, rfl⟩
    | cons y l' =>
      obtain ⟨a, ha⟩ := ih (by simp)
      exact ⟨a, by rw [List.getLast?_cons_cons]; exact ha⟩

theorem countP_beq_eq_one {α : Type _} [BEq α] [LawfulBEq α] {a : α} :
    ∀ {l : List α}, l.Nodup → a ∈ l → l.countP (fun x => x == a) = 1 := by
  intro l
  induction l with
  | nil => intro _ h; simp at h
  | cons x l ih =>
    intro hnd hmem
    rw [List.countP_cons]
    rcases List.mem_cons.mp hmem with heq | hm
    · subst heq
      have h0 : l.countP (fun y => y == a) = 0 := by
        rw [List.countP_eq_zero]
        intro y hy hc
        have hya : y = a := by simpa using hc
        subst hya
        exact (List.nodup_cons.mp hnd).1 hy
      rw [h0]
      simp
    · have hx : (x == a) = false := by
        have hxa : x ≠ a := by
          rintro rfl
          exact (List.nodup_cons.mp hnd).1 hm
        simpa using hxa
      rw [hx]
      have h1 := ih (List.nodup_cons.mp hnd).2 hm
      simpa using h1

/-- The select-expression branch of `PLURALS_call` as an equation. -/
theorem PLURALS_call_select {keys : List String} {sel : Expression}
    {text : String} {f : PatternElement → Pattern} {dk : String}
    {last : String × PatternElement}
    (hcond : ¬(keys.length = 1 ∨ (variantsOf text).length = 1))
    (hdk : defaultKeyOf keys = some dk)
    (hall : (keys.zip (variantsOf text)).all
      (fun kv => DEFAULT_ORDER.contains kv.1) = true)
    (hlast : (sortedKvs keys text).getLast? = some last) :
    PLURALS_call keys sel text f = .ok (.mk [.placeable (.selectExpr sel
      ((if last.1 == dk then sortedKvs keys text
        else sortedKvs keys text ++ [(dk, last.2)]).map (mkVariant dk f)))]) := by
  unfold PLURALS_call
  rw [if_neg hcond, hdk, hall, hlast]
  rfl

/-- C1: whenever PLURALS emits a select expression (more than one category,
more than one variant, all category names among the six CLDR names — the
context's ordered set of categories being duplicate-free), exactly one
variant of the result is marked default; its key is the default category
(the last name of the canonical ordering present in `plural_categories`,
per `defaultKeyOf`); and when the canonically-last zipped pair does not
carry that category, exactly one extra variant with the default category and
that last pair's value is appended after the sorted pairs. -/
theorem C1_plurals_default (keys : List String) (sel : Expression)
    (text : String) (f : PatternElement → Pattern)
    (hnd : keys.Nodup) (hlen : 1 < keys.length)
    (hmem : ∀ k ∈ keys, k ∈ DEFAULT_ORDER)
    (hvar : 1 < (splitSemis text.data).length) :
    ∃ dk last, defaultKeyOf keys = some dk ∧
      (sortedKvs keys text).getLast? = some last ∧
      PLURALS_call keys sel text f = .ok (.mk [.placeable (.selectExpr sel
        ((if last.1 == dk then sortedKvs keys text
          else sortedKvs keys text ++ [(dk, last.2)]).map (mkVariant dk f)))]) ∧
      (((if last.1 == dk then sortedKvs keys text
          else sortedKvs keys text ++ [(dk, last.2)]).map
          (mkVariant dk f)).countP (fun v => v.default) = 1) ∧
      (∀ v ∈ (if last.1 == dk then sortedKvs keys text
          else sortedKvs keys text ++ [(dk, last.2)]).map (mkVariant dk f),
        v.default = true → v.key = dk) := by
  have hkne : keys ≠ [] := by
    intro hc
    rw [hc] at hlen
    simp at hlen
  obtain ⟨dk, hdk, hdkK, hdkD, hdkMax⟩ := defaultKeyOf_spec hkne hmem
  have hvlen : 1 < (variantsOf text).length := by
    unfold variantsOf
    simpa using hvar
  have hcond : ¬(keys.length = 1 ∨ (variantsOf text).length = 1) := by
    rintro (h | h) <;> omega
  have hkvsfst : (keys.zip (variantsOf text)).map Prod.fst =
      keys.take (variantsOf text).length := zip_map_fst _ _
  have hndt : ((keys.zip (variantsOf text)).map Prod.fst).Nodup := by
    rw [hkvsfst]
    exact List.Nodup.sublist (List.take_sublist _ _) hnd
  have hsubkeys : ∀ kv ∈ keys.zip (variantsOf text), kv.1 ∈ keys := by
    intro kv hkv
    have h1 : kv.1 ∈ (keys.zip (variantsOf text)).map Prod.fst :=
      List.mem_map_of_mem _ hkv
    rw [hkvsfst] at h1
    exact (List.take_sublist _ _).subset h1
  have hall : (keys.zip (variantsOf text)).all
      (fun kv => DEFAULT_ORDER.contains kv.1) = true := by
    rw [List.all_eq_true]
    intro kv hkv
    simpa [List.contains] using hmem kv.1 (hsubkeys kv hkv)
  have hperm : List.Perm (sortedKvs keys text) (keys.zip (variantsOf text)) := by
    unfold sortedKvs
    exact List.perm_insertionSort _ _
  have hsorted : List.Pairwise (fun a b => orderIndex a.1 ≤ orderIndex b.1)
      (sortedKvs keys text) := by
    unfold sortedKvs
    haveI : IsTotal (String × PatternElement)
        (fun a b => orderIndex a.1 ≤ orderIndex b.1) :=
      ⟨fun a b => Nat.le_total _ _⟩
    haveI : IsTrans (String × PatternElement)
        (fun a b => orderIndex a.1 ≤ orderIndex b.1) :=
      ⟨fun a b c h1 h2 => Nat.le_trans h1 h2⟩
    exact List.sorted_insertionSort _ _
  have hkvsne : keys.zip (variantsOf text) ≠ [] := by
    have hpos : 0 < (keys.zip (variantsOf text)).length := by
      rw [List.length_zip]
      omega
    intro hc
    rw [hc] at hpos
    simp at hpos
  have hsne : sortedKvs keys text ≠ [] := by
    intro hc
    have hl := hperm.length_eq
    rw [hc] at hl
    exact hkvsne (List.length_eq_zero.mp hl.symm)
  obtain ⟨last, hlast⟩ := getLastQ_some _ hsne
  have hlastmem : last ∈ sortedKvs keys text := mem_of_getLastQ _ _ hlast
  have hlastkey : last.1 ∈ keys := hsubkeys last (hperm.mem_iff.mp hlastmem)
  have hlastD : last.1 ∈ DEFAULT_ORDER := hmem _ hlastkey
  have hndSorted : ((sortedKvs keys text).map Prod.fst).Nodup :=
    ((hperm.map Prod.fst).nodup_iff).mpr hndt
  refine ⟨dk, last, hdk, hlast, PLURALS_call_select hcond hdk hall hlast,
    ?_, ?_⟩
  · rw [List.countP_map]
    have hfn : ((fun v => Variant.default v) ∘ mkVariant dk f) =
        fun kv : String × PatternElement => kv.1 == dk := rfl
    rw [hfn]
    by_cases hld : (last.1 == dk) = true
    · rw [if_pos hld]
      have h1 : List.countP
          (fun kv : String × PatternElement => kv.1 == dk)
          (sortedKvs keys text) =
          List.countP (fun x => x == dk)
            ((sortedKvs keys text).map Prod.fst) := by
        rw [List.countP_map]
        rfl
      rw [h1]
      refine countP_beq_eq_one hndSorted ?_
      have hld2 : last.1 = dk := by simpa using hld
      rw [← hld2]
      exact List.mem_map_of_mem _ hlastmem
    · rw [if_neg hld, List.countP_append]
      have h0 : List.countP
          (fun kv : String × PatternElement => kv.1 == dk)
          (sortedKvs keys text) = 0 := by
        rw [List.countP_eq_zero]
        intro kv hkv hc
        have hkvdk : kv.1 = dk := by simpa using hc
        have hmax := pairwise_getLast_max
          (fun kv : String × PatternElement => orderIndex kv.1) _ last
          hsorted hlast kv hkv
        have h2 : orderIndex dk ≤ orderIndex last.1 := by
          rw [← hkvdk]
          exact hmax
        have h3 : orderIndex last.1 ≤ orderIndex dk := hdkMax last.1 hlastkey
        have h4 : last.1 = dk := orderIndex_inj hlastD hdkD
          (Nat.le_antisymm h3 h2)
        rw [h4] at hld
        simp at hld
      rw [h0]
      simp
  · intro v hv hd
    have hv2 : v ∈ (if (last.1 == dk) = true then sortedKvs keys text
        else sortedKvs keys text ++ [(dk, last.2)]).map (mkVariant dk f) := by
      simpa using hv
    rcases List.mem_map.mp hv2 with ⟨kv, hkv, rfl⟩
    show kv.1 = dk
    have hd2 : (kv.1 == dk) = true := hd
    simpa using hd2

/-- Witness for C1 at a concrete input. -/
theorem C1_witness :
    ∃ dk last, defaultKeyOf ["one", "other"] = some dk ∧
      (sortedKvs ["one", "other"] "1 file;# files").getLast? = some last ∧
      PLURALS_call ["one", "other"] (.external "n") "1 file;# files"
        (fun e => Transform.pattern_of [.elem e]) =
        .ok (.mk [.placeable (.selectExpr (.external "n")
        ((if last.1 == dk then sortedKvs ["one", "other"] "1 file;# files"
          else sortedKvs ["one", "other"] "1 file;# files" ++ [(dk, last.2)]).map
          (mkVariant dk (fun e => Transform.pattern_of [.elem e]))))]) ∧
      (((if last.1 == dk then sortedKvs ["one", "other"] "1 file;# files"
          else sortedKvs ["one", "other"] "1 file;# files" ++ [(dk, last.2)]).map
          (mkVariant dk (fun e => Transform.pattern_of [.elem e]))).countP
          (fun v => v.default) = 1) ∧
      (∀ v ∈ (if last.1 == dk then sortedKvs ["one", "other"] "1 file;# files"
          else sortedKvs ["one", "other"] "1 file;# files" ++
            [(dk, last.2)]).map
          (mkVariant dk (fun e => Transform.pattern_of [.elem e])),
        v.default = true → v.key = dk) :=
  C1_plurals_default ["one", "other"] (.external "n") "1 file;# files"
    (fun e => Transform.pattern_of [.elem e])
    (by decide) (by decide) (by decide) (by decide)

end FluentMigrate

